import Mathlib

/-!
Verification of the PageRank implementation in `src/pagerank.py`.

The program manipulates Python dicts keyed by page names.  We embed a dict
as an association list in insertion order, Python's `/` as exact rational
division with the `ZeroDivisionError` made explicit (`Option`), dict
subscripting with its `KeyError` made explicit, and each `for` loop of the
source as a structural recursion over the iterated list carrying the loop's
accumulator.  Randomness (`random.choice`, `random.choices`) is modelled by
an oracle supplying, at every draw, an index into the population passed to
the call; the claims quantify over every possible outcome of the draws, so
theorems quantify over the oracle.
-/

set_option maxHeartbeats 1000000
set_option autoImplicit false

namespace PageRank

/-- Page names (Python strings). -/
abbrev Node := String

/-- A corpus: Python dict mapping each page to the list of pages it links to
(`crawl` stores a `set`; we keep its elements as a list, distinctness being a
hypothesis where it matters).  The list order is the dict's key order. -/
abbrev Graph := List (Node × List Node)

/-- A rank / probability dict. -/
abbrev RankVec := List (Node × ℚ)

/-- The key list `list(corpus.keys())` of a dict, in order. -/
def keys {β : Type} (m : List (Node × β)) : List Node := m.map Prod.fst

/-- The value list `list(m.values())` of a dict, in order. -/
def values {β : Type} (m : List (Node × β)) : List β := m.map Prod.snd

/-- Python division on exact rationals, with `ZeroDivisionError` explicit. -/
def qdiv (a b : ℚ) : Option ℚ := if b = 0 then none else some (a / b)

/-- Python dict subscript `m[key]`, with `KeyError` explicit. -/
def dget {β : Type} : List (Node × β) → Node → Option β
  | [], _ => none
  | kv :: rest, key => if kv.1 = key then some kv.2 else dget rest key

/-- Python dict assignment `m[key] = v`: overwrite in place when the key is
present (insertion order kept), append otherwise. -/
def dset {β : Type} : List (Node × β) → Node → β → List (Node × β)
  | [], key, v => [(key, v)]
  | kv :: rest, key, v =>
    if kv.1 = key then (kv.1, v) :: rest else kv :: dset rest key v

/-- The `for link in corpus` loop of `transition_model`
(src/pagerank.py lines 64-68), iterating over the corpus keys with the
`probs` dict as accumulator. -/
def tmLoop (corpus : Graph) (internal : List Node) (damping : ℚ) :
    List Node → RankVec → Option RankVec
  | [], probs => some probs
  | link :: rest, probs =>
    if link ∈ internal then do
      let a ← qdiv (1 - damping) (corpus.length : ℚ)
      let b ← qdiv damping (internal.length : ℚ)
      tmLoop corpus internal damping rest (dset probs link (a + b))
    else do
      let a ← qdiv (1 - damping) (corpus.length : ℚ)
      tmLoop corpus internal damping rest (dset probs link a)

/-- `transition_model(corpus, page, damping_factor)` of src/pagerank.py:
`internal = list(corpus[page])`, then one probability per corpus key. -/
def transition_model (corpus : Graph) (page : Node) (damping : ℚ) :
    Option RankVec := do
  let internal ← dget corpus page
  tmLoop corpus internal damping (keys corpus) []

/-- Looking a key up in a literal key-value map built over `ks` yields the
tabulated value as soon as the key occurs in `ks`. -/
theorem dget_map_eq {β : Type} (f : Node → β) :
    ∀ (ks : List Node) (p : Node), p ∈ ks →
      dget (ks.map (fun x => (x, f x))) p = some (f p) := by
  intro ks
  induction ks with
  | nil => intro p hp; cases hp
  | cons a rest ih =>
    intro p hp
    by_cases hap : a = p
    · subst hap
      simp [dget]
    · have hp' : p ∈ rest := by
        rcases List.mem_cons.mp hp with h | h
        · exact absurd h.symm hap
        · exact h
      simp [dget, hap, ih p hp']

/-- `dget` returns `none` exactly on keys absent from the dict. -/
theorem dget_eq_none_of_not_mem {β : Type} :
    ∀ (m : List (Node × β)) (key : Node), key ∉ keys m → dget m key = none := by
  intro m
  induction m with
  | nil => intro key _; rfl
  | cons kv rest ih =>
    intro key hk
    have h1 : kv.1 ≠ key := by
      intro h; exact hk (by simp [keys, h])
    have h2 : key ∉ keys rest := by
      intro h; exact hk (by simp [keys] at h ⊢; exact Or.inr h)
    simp [dget, h1, ih key h2]

/-- Assigning a fresh key appends the binding at the end of the dict. -/
theorem dset_append_of_not_mem {β : Type} :
    ∀ (m : List (Node × β)) (key : Node) (v : β), key ∉ keys m →
      dset m key v = m ++ [(key, v)] := by
  intro m
  induction m with
  | nil => intro key v _; rfl
  | cons kv rest ih =>
    intro key v hk
    have h1 : kv.1 ≠ key := by
      intro h; exact hk (by simp [keys, h])
    have h2 : key ∉ keys rest := by
      intro h; exact hk (by simp [keys] at h ⊢; exact Or.inr h)
    simp [dset, h1, ih key v h2]

/-- `dget` after looking through an unrelated prefix. -/
theorem dget_append {β : Type} (m₁ m₂ : List (Node × β)) (key : Node)
    (h : key ∉ keys m₁) : dget (m₁ ++ m₂) key = dget m₂ key := by
  induction m₁ with
  | nil => rfl
  | cons kv rest ih =>
    have h1 : kv.1 ≠ key := by
      intro hc; exact h (by simp [keys, hc])
    have h2 : key ∉ keys rest := by
      intro hc; exact h (by simp [keys] at hc ⊢; exact Or.inr hc)
    simp [dget, h1, ih h2]

/-- Closed form of the `transition_model` loop: over distinct keys not yet
bound in the accumulator, every key gets `(1-d)/k + d/m` when linked and
`(1-d)/k` otherwise, appended in order. -/
theorem tmLoop_eq (corpus : Graph) (internal : List Node) (d : ℚ)
    (hk : (corpus.length : ℚ) ≠ 0) :
    ∀ (ks : List Node) (probs : RankVec), ks.Nodup →
      (∀ x ∈ ks, x ∉ keys probs) →
      tmLoop corpus internal d ks probs =
        some (probs ++ ks.map (fun link =>
          (link, if link ∈ internal
            then (1 - d) / (corpus.length : ℚ) + d / (internal.length : ℚ)
            else (1 - d) / (corpus.length : ℚ)))) := by
  intro ks
  induction ks with
  | nil => intro probs _ _; simp [tmLoop]
  | cons link rest ih =>
    intro probs hnd hfresh
    have hndr : rest.Nodup := hnd.of_cons
    have hlinkrest : link ∉ rest := by
      intro hc; exact (List.nodup_cons.mp hnd).1 hc
    have hfl : link ∉ keys probs := hfresh link (by simp)
    have hfresh' : ∀ x ∈ rest,
        x ∉ keys (dset probs link (if link ∈ internal
          then (1 - d) / (corpus.length : ℚ) + d / (internal.length : ℚ)
          else (1 - d) / (corpus.length : ℚ))) := by
      intro x hx
      rw [dset_append_of_not_mem probs link _ hfl]
      intro hc
      have : x ∈ keys probs ∨ x = link := by
        simp [keys] at hc ⊢
        rcases hc with h | h
        · exact Or.inl h
        · exact Or.inr h
      rcases this with h | h
      · exact hfresh x (by simp [hx]) h
      · exact hlinkrest (h ▸ hx)
    by_cases hmem : link ∈ internal
    · have hintne : (internal.length : ℚ) ≠ 0 := by
        have : internal ≠ [] := by
          intro hc; simp [hc] at hmem
        have : internal.length ≠ 0 := by
          simpa [List.length_eq_zero] using this
        exact_mod_cast this
      have := ih (dset probs link ((1 - d) / (corpus.length : ℚ) +
          d / (internal.length : ℚ))) hndr (by simpa [hmem] using hfresh')
      simp only [tmLoop, hmem, if_pos, qdiv, hk, hintne, if_neg,
        Option.bind_eq_bind, Option.some_bind, reduceIte] at this ⊢
      rw [this, dset_append_of_not_mem probs link _ hfl]
      simp [hmem]
    · have := ih (dset probs link ((1 - d) / (corpus.length : ℚ))) hndr
        (by simpa [hmem] using hfresh')
      simp only [tmLoop, hmem, qdiv, hk, if_neg, Option.bind_eq_bind,
        Option.some_bind, reduceIte] at this ⊢
      rw [this, dset_append_of_not_mem probs link _ hfl]
      simp [hmem]

/-- Closed form of `transition_model` for a page present in the corpus. -/
theorem transition_model_eq (corpus : Graph) (page : Node)
    (internal : List Node) (d : ℚ) (hne : corpus ≠ [])
    (hnd : (keys corpus).Nodup) (hpage : dget corpus page = some internal) :
    transition_model corpus page d =
      some ((keys corpus).map (fun link =>
        (link, if link ∈ internal
          then (1 - d) / (corpus.length : ℚ) + d / (internal.length : ℚ)
          else (1 - d) / (corpus.length : ℚ)))) := by
  have hk : (corpus.length : ℚ) ≠ 0 := by
    have : corpus.length ≠ 0 := by simpa [List.length_eq_zero] using hne
    exact_mod_cast this
  have := tmLoop_eq corpus internal d hk (keys corpus) [] hnd (by simp [keys])
  simp [transition_model, hpage, this]

/-- C1 (counter-evidence): the code has no dangling-node branch.  On the
one-page corpus `{"A": set()}` with the repository's damping 0.85,
`transition_model` assigns `(1-0.85)/1 = 3/20` to the dangling page, not the
`1/k = 1` the claim requires. -/
theorem C1_dangling_eval :
    transition_model [("A", [])] "A" (17/20) = some [("A", 3/20)] ∧
      (3/20 : ℚ) ≠ 1 / ([("A", ([] : List Node))] : Graph).length := by
  constructor
  · norm_num [transition_model, tmLoop, dget, dset, qdiv, keys]
  · norm_num

/-- C2 (counter-evidence): for a dangling page the returned values sum to
`1 - damping`, not `1`: on `{"A": set()}` with damping `1/2` the sum of the
distribution's values is `1/2`. -/
theorem C2_dangling_sum_eval :
    (transition_model [("A", [])] "A" (1/2)).map (fun m => (values m).sum) =
      some (1/2) ∧ (1/2 : ℚ) ≠ 1 := by
  constructor
  · norm_num [transition_model, tmLoop, dget, dset, qdiv, keys, values]
  · norm_num

/-- C8: for a page with outdegree `m > 0`, `transition_model` assigns
`(1-d)/k + d/m` to each of the `m` linked pages and `(1-d)/k` to every other
page of the graph. -/
theorem C8_transition_linked (corpus : Graph) (page : Node)
    (internal : List Node) (d : ℚ) (hd0 : 0 < d) (hd1 : d ≤ 1)
    (hne : corpus ≠ []) (hnd : (keys corpus).Nodup)
    (hpage : dget corpus page = some internal) (hm : internal ≠ []) :
    ∃ probs, transition_model corpus page d = some probs ∧
      keys probs = keys corpus ∧
      ∀ p ∈ keys corpus, dget probs p =
        some (if p ∈ internal
          then (1 - d) / (corpus.length : ℚ) + d / (internal.length : ℚ)
          else (1 - d) / (corpus.length : ℚ)) := by
  refine ⟨_, transition_model_eq corpus page internal d hne hnd hpage, ?_, ?_⟩
  · simp [keys]
  · intro p hp
    exact dget_map_eq _ (keys corpus) p hp

/-- Witness for C8 on the two-page corpus `{"A": {"B"}, "B": set()}`. -/
theorem C8_witness :
    ∃ probs,
      transition_model [("A", ["B"]), ("B", [])] "A" (17/20) = some probs ∧
      keys probs = keys ([("A", ["B"]), ("B", [])] : Graph) ∧
      ∀ p ∈ keys ([("A", ["B"]), ("B", [])] : Graph), dget probs p =
        some (if p ∈ ["B"]
          then (1 - 17/20) / ((2 : ℕ) : ℚ) + (17/20) / ((1 : ℕ) : ℚ)
          else (1 - 17/20) / ((2 : ℕ) : ℚ)) :=
  C8_transition_linked [("A", ["B"]), ("B", [])] "A" ["B"] (17/20)
    (by norm_num) (by norm_num) (by decide) (by decide) (by decide) (by decide)

/-- C9: calling `transition_model` on a page with zero outgoing links incurs
no division by zero (the `damping/m` division sits in the branch requiring a
link to be among the page's targets, unreachable when there are none) and the
call returns normally. -/
theorem C9_dangling_returns (corpus : Graph) (page : Node) (d : ℚ)
    (hd0 : 0 < d) (hd1 : d ≤ 1) (hne : corpus ≠ [])
    (hnd : (keys corpus).Nodup) (hpage : dget corpus page = some []) :
    ∃ probs, transition_model corpus page d = some probs := by
  exact ⟨_, transition_model_eq corpus page [] d hne hnd hpage⟩

/-- Witness for C9 on the corpus `{"A": {"B"}, "B": set()}` at its dangling
page `"B"`. -/
theorem C9_witness :
    ∃ probs, transition_model [("A", ["B"]), ("B", [])] "B" (17/20) =
      some probs :=
  C9_dangling_returns [("A", ["B"]), ("B", [])] "B" (17/20)
    (by norm_num) (by norm_num) (by decide) (by decide) (by decide)

/-- Model of `random.choice(l)`: returns an element of the non-empty
population `l`, the oracle index `idx` selecting which one; on an empty
population the stdlib call raises `IndexError`. -/
def randomChoice (idx : ℕ) (l : List Node) : Option Node :=
  if h : l.length = 0 then none
  else some (l.get ⟨idx % l.length, Nat.mod_lt idx (Nat.pos_of_ne_zero h)⟩)

/-- Model of `random.choices(l, weights, k=1)[0]`: CPython raises
`ValueError` when the weight total is not positive, and otherwise returns
an element of the population, the oracle index selecting which one. -/
def randomChoices (idx : ℕ) (l : List Node) (weights : List ℚ) :
    Option Node :=
  if weights.sum ≤ 0 then none
  else randomChoice idx l

/-- The `for i in range(n)` loop of `sample_pagerank`
(src/pagerank.py lines 87-91): read `sample[i]`, build its transition
distribution, draw the next page from the distribution's keys weighted by
the distribution's values, append it. -/
def sampleLoop (corpus : Graph) (damping : ℚ) (idxs : ℕ → ℕ) :
    List ℕ → List Node → Option (List Node)
  | [], sample => some sample
  | i :: rest, sample => do
    let current ← sample.get? i
    let probs ← transition_model corpus current damping
    let nxt ← randomChoices (idxs i) (keys probs) (values probs)
    sampleLoop corpus damping idxs rest (sample ++ [nxt])

/-- The counting loop of `sample_pagerank` (src/pagerank.py lines 95-96):
`count[page] = sample.count(page) / len(sample)` for each corpus key. -/
def countLoop (sample : List Node) : List Node → RankVec → Option RankVec
  | [], count => some count
  | page :: rest, count => do
    let v ← qdiv (sample.count page : ℚ) (sample.length : ℚ)
    countLoop sample rest (dset count page v)

/-- `sample_pagerank(corpus, damping_factor, n)` of src/pagerank.py, the two
random draws supplied by the oracle indices `idx0` (initial page) and
`idxs i` (draw of step `i`). -/
def sample_pagerank (corpus : Graph) (damping : ℚ) (n : ℕ)
    (idx0 : ℕ) (idxs : ℕ → ℕ) : Option RankVec := do
  let current ← randomChoice idx0 (keys corpus)
  let sample ← sampleLoop corpus damping idxs (List.range n) [current]
  countLoop sample (keys corpus) []

/-- A successful draw lies in the population. -/
theorem randomChoice_mem (idx : ℕ) (l : List Node) (x : Node)
    (h : randomChoice idx l = some x) : x ∈ l := by
  unfold randomChoice at h
  by_cases hl : l.length = 0
  · simp [hl] at h
  · simp only [hl, dite_false] at h
    exact (Option.some_inj.mp h) ▸ List.get_mem l _ _

/-- On a non-empty population the draw succeeds. -/
theorem randomChoice_some (idx : ℕ) (l : List Node) (hl : l ≠ []) :
    ∃ x, randomChoice idx l = some x ∧ x ∈ l := by
  have h : l.length ≠ 0 := by simpa [List.length_eq_zero] using hl
  refine ⟨l.get ⟨idx % l.length, Nat.mod_lt idx (Nat.pos_of_ne_zero h)⟩,
    ?_, List.get_mem l _ _⟩
  unfold randomChoice
  simp only [h, dite_false]

/-- On a non-empty population with positive total weight the weighted draw
succeeds. -/
theorem randomChoices_some (idx : ℕ) (l : List Node) (weights : List ℚ)
    (hl : l ≠ []) (hw : 0 < weights.sum) :
    ∃ x, randomChoices idx l weights = some x ∧ x ∈ l := by
  obtain ⟨x, hx, hxl⟩ := randomChoice_some idx l hl
  refine ⟨x, ?_, hxl⟩
  unfold randomChoices
  rw [if_neg (not_le.mpr hw), hx]

/-- Every value of the transition distribution is strictly positive when
the damping factor is strictly between 0 and 1, hence so is their total. -/
theorem transition_values_sum_pos (corpus : Graph) (internal : List Node)
    (d : ℚ) (hd0 : 0 < d) (hd1 : d < 1) (hne : corpus ≠ []) :
    0 < (values ((keys corpus).map (fun link =>
      (link, if link ∈ internal
        then (1 - d) / (corpus.length : ℚ) + d / (internal.length : ℚ)
        else (1 - d) / (corpus.length : ℚ))))).sum := by
  have hkpos : (0 : ℚ) < (corpus.length : ℚ) := by
    have : corpus.length ≠ 0 := by simpa [List.length_eq_zero] using hne
    exact_mod_cast Nat.pos_of_ne_zero this
  have hkne : keys corpus ≠ [] := by
    intro hc
    exact hne (by simpa [keys] using congrArg List.length hc)
  have hv : values ((keys corpus).map (fun link =>
      (link, if link ∈ internal
        then (1 - d) / (corpus.length : ℚ) + d / (internal.length : ℚ)
        else (1 - d) / (corpus.length : ℚ)))) =
      (keys corpus).map (fun link =>
        if link ∈ internal
        then (1 - d) / (corpus.length : ℚ) + d / (internal.length : ℚ)
        else (1 - d) / (corpus.length : ℚ)) := by
    simp [values, List.map_map]
  rw [hv]
  refine List.sum_pos _ ?_ (by simpa using hkne)
  intro x hx
  obtain ⟨link, _, rfl⟩ := List.mem_map.mp hx
  have hbase : 0 < (1 - d) / (corpus.length : ℚ) :=
    div_pos (by linarith) hkpos
  by_cases hm : link ∈ internal
  · have hmlen : (0 : ℚ) ≤ d / (internal.length : ℚ) := by
      have : (0 : ℚ) ≤ (internal.length : ℚ) := by positivity
      positivity
    rw [if_pos hm]
    linarith
  · rw [if_neg hm]
    exact hbase

/-- Every key of a dict can be read back. -/
theorem dget_some_of_mem {β : Type} :
    ∀ (m : List (Node × β)) (p : Node), p ∈ keys m →
      ∃ v, dget m p = some v := by
  intro m
  induction m with
  | nil => intro p hp; cases hp
  | cons kv rest ih =>
    intro p hp
    by_cases h : kv.1 = p
    · exact ⟨kv.2, by simp [dget, h]⟩
    · have : p ∈ keys rest := by
        rcases List.mem_cons.mp hp with hc | hc
        · exact absurd hc.symm h
        · exact hc
      obtain ⟨v, hv⟩ := ih p this
      exact ⟨v, by simp [dget, h, hv]⟩

/-- The walk loop always succeeds on a non-empty corpus, extends the visit
sequence by one page per step, and only ever visits corpus keys. -/
theorem sampleLoop_spec (corpus : Graph) (d : ℚ) (idxs : ℕ → ℕ)
    (hd0 : 0 < d) (hd1 : d < 1)
    (hne : corpus ≠ []) (hnd : (keys corpus).Nodup) :
    ∀ (m j : ℕ) (sample : List Node), sample.length = j + 1 →
      (∀ x ∈ sample, x ∈ keys corpus) →
      ∃ out, sampleLoop corpus d idxs (List.range' j m) sample = some out ∧
        out.length = j + m + 1 ∧ ∀ x ∈ out, x ∈ keys corpus := by
  intro m
  induction m with
  | zero =>
    intro j sample hlen hmem
    exact ⟨sample, by simp [sampleLoop], by omega, hmem⟩
  | succ m ih =>
    intro j sample hlen hmem
    have hj : j < sample.length := by omega
    have hget : sample.get? j = some (sample.get ⟨j, hj⟩) :=
      List.get?_eq_get hj
    set cur := sample.get ⟨j, hj⟩ with hcur
    have hcurmem : cur ∈ keys corpus := hmem cur (List.get_mem sample _ _)
    obtain ⟨internal, hint⟩ := dget_some_of_mem corpus cur hcurmem
    have htm := transition_model_eq corpus cur internal d hne hnd hint
    have hkeysne : keys corpus ≠ [] := by
      intro hc
      exact hne (by simpa [keys] using congrArg List.length hc)
    have hprobkeys : keys ((keys corpus).map (fun link =>
        (link, if link ∈ internal
          then (1 - d) / (corpus.length : ℚ) + d / (internal.length : ℚ)
          else (1 - d) / (corpus.length : ℚ)))) = keys corpus := by
      simp [keys]
    obtain ⟨nxt, hnxt, hnxtmem⟩ := randomChoices_some (idxs j) (keys corpus)
      (values ((keys corpus).map (fun link =>
        (link, if link ∈ internal
          then (1 - d) / (corpus.length : ℚ) + d / (internal.length : ℚ)
          else (1 - d) / (corpus.length : ℚ))))) hkeysne
      (transition_values_sum_pos corpus internal d hd0 hd1 hne)
    have hmem' : ∀ x ∈ sample ++ [nxt], x ∈ keys corpus := by
      intro x hx
      rcases List.mem_append.mp hx with hx | hx
      · exact hmem x hx
      · simpa using (List.mem_singleton.mp hx) ▸ hnxtmem
    obtain ⟨out, hout, houtlen, houtmem⟩ :=
      ih (j + 1) (sample ++ [nxt]) (by simp [hlen]) hmem'
    refine ⟨out, ?_, by omega, houtmem⟩
    rw [List.range'_succ]
    simp only [sampleLoop, hget, Option.bind_eq_bind, Option.some_bind, htm,
      hprobkeys, hnxt]
    exact hout

/-- Closed form of the counting loop over distinct keys not yet bound in the
accumulator. -/
theorem countLoop_eq (sample : List Node)
    (hsample : (sample.length : ℚ) ≠ 0) :
    ∀ (ks : List Node) (cnt : RankVec), ks.Nodup →
      (∀ x ∈ ks, x ∉ keys cnt) →
      countLoop sample ks cnt =
        some (cnt ++ ks.map (fun p =>
          (p, (sample.count p : ℚ) / (sample.length : ℚ)))) := by
  intro ks
  induction ks with
  | nil => intro cnt _ _; simp [countLoop]
  | cons page rest ih =>
    intro cnt hnd hfresh
    have hndr : rest.Nodup := hnd.of_cons
    have hpagerest : page ∉ rest := (List.nodup_cons.mp hnd).1
    have hfp : page ∉ keys cnt := hfresh page (by simp)
    have hfresh' : ∀ x ∈ rest,
        x ∉ keys (dset cnt page
          ((sample.count page : ℚ) / (sample.length : ℚ))) := by
      intro x hx
      rw [dset_append_of_not_mem cnt page _ hfp]
      intro hc
      have : x ∈ keys cnt ∨ x = page := by
        simp [keys] at hc ⊢
        rcases hc with h | h
        · exact Or.inl h
        · exact Or.inr h
      rcases this with h | h
      · exact hfresh x (by simp [hx]) h
      · exact hpagerest (h ▸ hx)
    have := ih (dset cnt page
      ((sample.count page : ℚ) / (sample.length : ℚ))) hndr hfresh'
    simp only [countLoop, qdiv, hsample, if_neg, Option.bind_eq_bind,
      Option.some_bind, reduceIte] at this ⊢
    rw [this, dset_append_of_not_mem cnt page _ hfp]
    simp

/-- Summing the indicator of one key over a list it does not occur in. -/
theorem sum_ite_eq_zero (a : Node) :
    ∀ ks : List Node, a ∉ ks →
      ((ks.map (fun p => if a = p then (1 : ℚ) else 0)).sum = 0) := by
  intro ks
  induction ks with
  | nil => intro _; simp
  | cons k rest ih =>
    intro ha
    have h1 : a ≠ k := fun hc => ha (by simp [hc])
    have h2 : a ∉ rest := fun hc => ha (by simp [hc])
    simp [h1, ih h2]

/-- Summing the indicator of one key over distinct keys containing it. -/
theorem sum_ite_eq_one (a : Node) :
    ∀ ks : List Node, ks.Nodup → a ∈ ks →
      ((ks.map (fun p => if a = p then (1 : ℚ) else 0)).sum = 1) := by
  intro ks
  induction ks with
  | nil => intro _ ha; cases ha
  | cons k rest ih =>
    intro hnd ha
    by_cases h : a = k
    · have : a ∉ rest := h ▸ (List.nodup_cons.mp hnd).1
      simp [h, sum_ite_eq_zero k rest (h ▸ this)]
    · have ha' : a ∈ rest := by
        rcases List.mem_cons.mp ha with hc | hc
        · exact absurd hc h
        · exact hc
      simp [h, ih hnd.of_cons ha']

/-- Occurrence counts over the distinct corpus keys add up to the length of
any sequence drawn from those keys. -/
theorem counts_sum (ks : List Node) (hnd : ks.Nodup) :
    ∀ sample : List Node, (∀ x ∈ sample, x ∈ ks) →
      ((ks.map (fun p => (sample.count p : ℚ))).sum = (sample.length : ℚ)) := by
  intro sample
  induction sample with
  | nil => intro _; simp
  | cons a s ih =>
    intro hmem
    have hmem' : ∀ x ∈ s, x ∈ ks := fun x hx => hmem x (by simp [hx])
    have ha : a ∈ ks := hmem a (by simp)
    have hsplit : ∀ p : Node, ((a :: s).count p : ℚ) =
        (s.count p : ℚ) + (if a = p then (1 : ℚ) else 0) := by
      intro p
      by_cases h : a = p
      · subst h
        rw [List.count_cons_self]
        push_cast
        simp
      · rw [List.count_cons_of_ne (fun hc => h hc.symm)]
        simp [h]
    simp only [hsplit]
    rw [List.sum_map_add, ih hmem', sum_ite_eq_one a ks hnd ha,
      List.length_cons]
    push_cast
    ring

/-- C7 (amended): on a non-empty graph, for any damping in (0,1) — at
damping 1 the weighted draw can instead raise on a dangling page — any
`n ≥ 1` and any outcome of the random draws, `sample_pagerank` returns for
each page the count of its occurrences in the full visit sequence of `n+1`
samples (initial page included) divided by `n+1`, and those values sum to
exactly 1 in rational arithmetic. -/
theorem C7_sample_counts (corpus : Graph) (d : ℚ) (n : ℕ)
    (idx0 : ℕ) (idxs : ℕ → ℕ) (hd0 : 0 < d) (hd1 : d < 1) (hn : 1 ≤ n)
    (hne : corpus ≠ []) (hnd : (keys corpus).Nodup) :
    ∃ sample : List Node, sample.length = n + 1 ∧
      sample_pagerank corpus d n idx0 idxs =
        some ((keys corpus).map (fun p =>
          (p, (sample.count p : ℚ) / ((n : ℚ) + 1)))) ∧
      (values ((keys corpus).map (fun p =>
          (p, (sample.count p : ℚ) / ((n : ℚ) + 1))))).sum = 1 := by
  have hkeysne : keys corpus ≠ [] := by
    intro hc
    exact hne (by simpa [keys] using congrArg List.length hc)
  obtain ⟨c0, hc0, hc0mem⟩ := randomChoice_some idx0 (keys corpus) hkeysne
  obtain ⟨sample, hrun, hlen, hmem⟩ := sampleLoop_spec corpus d idxs hd0 hd1
    hne hnd n 0 [c0] (by simp)
    (by intro x hx; simpa using (List.mem_singleton.mp hx) ▸ hc0mem)
  have hlen' : sample.length = n + 1 := by omega
  have hlq : (sample.length : ℚ) ≠ 0 := by
    rw [hlen']
    positivity
  have hcount := countLoop_eq sample hlq (keys corpus) [] hnd (by simp [keys])
  have hcast : (sample.length : ℚ) = (n : ℚ) + 1 := by
    rw [hlen']
    push_cast
    ring
  refine ⟨sample, hlen', ?_, ?_⟩
  · rw [sample_pagerank, List.range_eq_range']
    simp only [Option.bind_eq_bind, hc0, Option.some_bind, hrun, hcount,
      hcast, List.nil_append]
  · have hv : values ((keys corpus).map (fun p =>
        (p, (sample.count p : ℚ) / ((n : ℚ) + 1)))) =
        (keys corpus).map (fun p => (sample.count p : ℚ) * ((n : ℚ) + 1)⁻¹) := by
      simp [values, div_eq_mul_inv]
    rw [hv, List.sum_map_mul_right, counts_sum (keys corpus) hnd sample hmem,
      hcast]
    have : ((n : ℚ) + 1) ≠ 0 := by positivity
    field_simp

/-- C10 (amended): for damping in (0,1) — at damping 1 the weighted draw
can instead raise on a dangling page — every page of the visit sequence,
the initial draw and each step's draw, is a key of the graph,
`transition_model` is only invoked on the sequence's pages, and the
returned rank dict has exactly the graph's keys. -/
theorem C10_walk_stays_in_graph (corpus : Graph) (d : ℚ) (n : ℕ)
    (idx0 : ℕ) (idxs : ℕ → ℕ) (hd0 : 0 < d) (hd1 : d < 1) (hn : 1 ≤ n)
    (hne : corpus ≠ []) (hnd : (keys corpus).Nodup) :
    ∃ c0 sample,
      randomChoice idx0 (keys corpus) = some c0 ∧ c0 ∈ keys corpus ∧
      sampleLoop corpus d idxs (List.range n) [c0] = some sample ∧
      (∀ x ∈ sample, x ∈ keys corpus) ∧
      (∀ i, i < n → ∃ cur, sample.get? i = some cur ∧ cur ∈ keys corpus) ∧
      ∃ result, sample_pagerank corpus d n idx0 idxs = some result ∧
        keys result = keys corpus := by
  have hkeysne : keys corpus ≠ [] := by
    intro hc
    exact hne (by simpa [keys] using congrArg List.length hc)
  obtain ⟨c0, hc0, hc0mem⟩ := randomChoice_some idx0 (keys corpus) hkeysne
  obtain ⟨sample, hrun, hlen, hmem⟩ := sampleLoop_spec corpus d idxs hd0 hd1
    hne hnd n 0 [c0] (by simp)
    (by intro x hx; simpa using (List.mem_singleton.mp hx) ▸ hc0mem)
  have hrun' : sampleLoop corpus d idxs (List.range n) [c0] = some sample := by
    rw [List.range_eq_range']
    exact hrun
  have hlq : (sample.length : ℚ) ≠ 0 := by
    have : sample.length = n + 1 := by omega
    rw [this]
    positivity
  have hcount := countLoop_eq sample hlq (keys corpus) [] hnd (by simp [keys])
  refine ⟨c0, sample, hc0, hc0mem, hrun', hmem, ?_, ?_⟩
  · intro i hi
    have hilt : i < sample.length := by omega
    exact ⟨sample.get ⟨i, hilt⟩, List.get?_eq_get hilt,
      hmem _ (List.get_mem sample _ _)⟩
  · refine ⟨(keys corpus).map (fun p =>
        (p, (sample.count p : ℚ) / (sample.length : ℚ))), ?_, ?_⟩
    · rw [sample_pagerank]
      simp only [Option.bind_eq_bind, hc0, Option.some_bind, hrun', hcount,
        List.nil_append]
    · simp [keys]

/-- C7 (counter-evidence): at damping 1 — inside the claim's (0,1] — on the
dangling one-page corpus `{"A": set()}` every transition weight is
`(1-1)/1 = 0`, so the first weighted draw raises `ValueError` instead of
returning, for instance with `n = 1` and the oracle picking index 0:
`sample_pagerank` does not return the counts. -/
theorem C7_counterexample :
    sample_pagerank [("A", [])] 1 1 0 (fun _ => 0) = none := by
  norm_num [sample_pagerank, sampleLoop, randomChoice, randomChoices,
    transition_model, tmLoop, qdiv, dget, dset, keys, values,
    List.range_succ]

/-- C10 (counter-evidence): at damping 1 on the dangling one-page corpus
`{"B": set()}` with `n = 2`, the weighted draw raises, so no rank dict is
returned at all — the claim's conclusion about the returned dict's keys
has no returned dict to hold of. -/
theorem C10_counterexample :
    sample_pagerank [("B", [])] 1 2 0 (fun _ => 0) = none := by
  norm_num [sample_pagerank, sampleLoop, randomChoice, randomChoices,
    transition_model, tmLoop, qdiv, dget, dset, keys, values,
    List.range_succ]

/-- Witness for C7 on `{"A": {"B"}, "B": {"A"}}`, damping 0.85, `n = 2`, the
oracle always picking index 0. -/
theorem C7_witness :
    ∃ sample : List Node, sample.length = 2 + 1 ∧
      sample_pagerank [("A", ["B"]), ("B", ["A"])] (17/20) 2 0 (fun _ => 0) =
        some ((keys ([("A", ["B"]), ("B", ["A"])] : Graph)).map (fun p =>
          (p, (sample.count p : ℚ) / (((2 : ℕ) : ℚ) + 1)))) ∧
      (values ((keys ([("A", ["B"]), ("B", ["A"])] : Graph)).map (fun p =>
          (p, (sample.count p : ℚ) / (((2 : ℕ) : ℚ) + 1))))).sum = 1 :=
  C7_sample_counts [("A", ["B"]), ("B", ["A"])] (17/20) 2 0 (fun _ => 0)
    (by norm_num) (by norm_num) (by norm_num) (by decide) (by decide)

/-- Witness for C10 on the same corpus and oracle. -/
theorem C10_witness :
    ∃ c0 sample,
      randomChoice 0 (keys ([("A", ["B"]), ("B", ["A"])] : Graph)) = some c0 ∧
      c0 ∈ keys ([("A", ["B"]), ("B", ["A"])] : Graph) ∧
      sampleLoop [("A", ["B"]), ("B", ["A"])] (17/20) (fun _ => 0)
        (List.range 2) [c0] = some sample ∧
      (∀ x ∈ sample, x ∈ keys ([("A", ["B"]), ("B", ["A"])] : Graph)) ∧
      (∀ i, i < 2 → ∃ cur, sample.get? i = some cur ∧
        cur ∈ keys ([("A", ["B"]), ("B", ["A"])] : Graph)) ∧
      ∃ result, sample_pagerank [("A", ["B"]), ("B", ["A"])] (17/20) 2 0
          (fun _ => 0) = some result ∧
        keys result = keys ([("A", ["B"]), ("B", ["A"])] : Graph) :=
  C10_walk_stays_in_graph [("A", ["B"]), ("B", ["A"])] (17/20) 2 0
    (fun _ => 0) (by norm_num) (by norm_num) (by norm_num) (by decide)
    (by decide)

/-- The `for prev_page, page_links in corpus.items()` loop of
`iterate_pagerank` (src/pagerank.py lines 124-129), accumulating `prob2`:
a source with no outgoing links is re-pointed at every corpus key, and each
source holding `page` contributes `prev_rank[prev_page]/len(page_links)`. -/
def prob2Loop (corpus : Graph) (prev : RankVec) (page : Node) :
    List (Node × List Node) → ℚ → Option ℚ
  | [], acc => some acc
  | s :: rest, acc =>
    let page_links := if s.2.length = 0 then keys corpus else s.2
    if page ∈ page_links then do
      let pr ← dget prev s.1
      let q ← qdiv pr (page_links.length : ℚ)
      prob2Loop corpus prev page rest (acc + q)
    else prob2Loop corpus prev page rest acc

/-- The `for page in corpus.keys()` loop of one round
(src/pagerank.py lines 120-132): `rank[page] = prob2*damping + prob1`,
reading only `prev`. -/
def rankLoop (corpus : Graph) (damping : ℚ) (prev : RankVec) :
    List Node → RankVec → Option RankVec
  | [], rank => some rank
  | page :: rest, rank => do
    let prob1 ← qdiv (1 - damping) ((keys corpus).length : ℚ)
    let prob2 ← prob2Loop corpus prev page corpus 0
    rankLoop corpus damping prev rest (dset rank page (prob2 * damping + prob1))

/-- The `for page in prev_rank.keys()` convergence-check loop
(src/pagerank.py lines 135-139): `check[page]` records whether the page's
absolute change is below 0.001. -/
def checkLoop (prev rank : RankVec) :
    List Node → List (Node × Bool) → Option (List (Node × Bool))
  | [], check => some check
  | page :: rest, check => do
    let a ← dget prev page
    let b ← dget rank page
    checkLoop prev rank rest (dset check page (decide (|a - b| < 1/1000)))

/-- `all(check.values())` (src/pagerank.py line 142). -/
def allValues (check : List (Node × Bool)) : Bool :=
  check.all (fun kv => kv.2)

/-- The initialization loop (src/pagerank.py lines 110-111):
`rank.update({page: 1/len(corpus.keys())})` for each page. -/
def initLoop (corpus : Graph) : List Node → RankVec → Option RankVec
  | [], rank => some rank
  | page :: rest, rank => do
    let v ← qdiv 1 ((keys corpus).length : ℚ)
    initLoop corpus rest (dset rank page v)

/-- The `while loop:` of `iterate_pagerank` (src/pagerank.py lines 118-144),
indexed by fuel: `none` means the loop has not exited within `fuel` rounds.
Each round recomputes every rank from `prev`, refreshes the check dict,
exits returning the freshly computed vector when every change is below
0.001, and otherwise continues with `prev_rank = rank.copy()`. -/
def iterLoop (corpus : Graph) (damping : ℚ) :
    ℕ → RankVec → RankVec → List (Node × Bool) → Option RankVec
  | 0, _, _, _ => none
  | fuel + 1, rank, prev, check => do
    let rank2 ← rankLoop corpus damping prev (keys corpus) rank
    let check2 ← checkLoop prev rank2 (keys prev) check
    if allValues check2 then some rank2
    else iterLoop corpus damping fuel rank2 rank2 check2

/-- `iterate_pagerank(corpus, damping_factor)` of src/pagerank.py:
uniform initialization, `prev_rank = rank.copy()`, an all-`False` check
dict over the rank keys, then the fuelled while loop. -/
def iterate_pagerank (corpus : Graph) (damping : ℚ) (fuel : ℕ) :
    Option RankVec := do
  let rank ← initLoop corpus (keys corpus) []
  let check := rank.map (fun kv => (kv.1, false))
  iterLoop corpus damping fuel rank rank check

/-- C3 (counter-evidence): on the empty graph `iterate_pagerank` does not
fail: both per-round loops iterate zero times, `all({})` is `True`, and the
empty rank dict is returned on the very first round. -/
theorem C3_counterexample :
    iterate_pagerank [] (17/20) 1 = some [] := by
  rfl

/-- C3 (amended): on the empty graph `sample_pagerank` does fail fast
(`random.choice` on an empty population raises), while `iterate_pagerank`
returns the empty rank dict without error, for any damping, sample count,
draw oracle and any fuel allowing at least one round. -/
theorem C3_empty_graph (d : ℚ) (n : ℕ) (idx0 : ℕ) (idxs : ℕ → ℕ)
    (fuel : ℕ) (hf : 1 ≤ fuel) :
    sample_pagerank [] d n idx0 idxs = none ∧
      iterate_pagerank [] d fuel = some [] := by
  constructor
  · rfl
  · match fuel, hf with
    | m + 1, _ =>
      rfl

/-- Witness for C3's amended statement. -/
theorem C3_witness :
    sample_pagerank [] (17/20) 3 0 (fun _ => 0) = none ∧
      iterate_pagerank [] (17/20) 2 = some [] :=
  C3_empty_graph (17/20) 3 0 (fun _ => 0) 2 (by norm_num)

/-- Tabulated rank dict: the corpus keys in order, each bound to `f`. -/
def cvec (corpus : Graph) (f : Node → ℚ) : RankVec :=
  (keys corpus).map (fun p => (p, f p))

/-- The effective link list the round loop works with: a source with no
outgoing links is re-pointed at every corpus key (src/pagerank.py 126-127). -/
def effOut (corpus : Graph) (links : List Node) : List Node :=
  if links.length = 0 then keys corpus else links

/-- The value one round of `iterate_pagerank` writes for target `t`,
reading the previous rank function `f`:
`prob2 * damping + (1-damping)/len(corpus.keys())`. -/
def newRank (corpus : Graph) (d : ℚ) (f : Node → ℚ) (t : Node) : ℚ :=
  (corpus.map (fun s =>
    if t ∈ effOut corpus s.2 then f s.1 / ((effOut corpus s.2).length : ℚ)
    else 0)).sum * d + (1 - d) / (((keys corpus).length : ℕ) : ℚ)

/-- The update rule in the words of spec §4.3, for the refinement claim:
`new_rank(t) = (1-damping)/k + damping * Σ_{s: t ∈ outlinks(s) OR
outlinks(s) empty} prev_rank(s)/effective_outdegree(s)` with
`effective_outdegree(s) = |outlinks(s)|` if non-empty, else `k`. -/
def specNewRank (corpus : Graph) (d : ℚ) (prev : Node → ℚ) (t : Node) : ℚ :=
  (1 - d) / (corpus.length : ℚ) +
    d * (corpus.map (fun s =>
      if t ∈ s.2 ∨ s.2 = [] then
        prev s.1 / (if s.2 = [] then (corpus.length : ℚ) else (s.2.length : ℚ))
      else 0)).sum

/-- The rank function after `n` rounds of the while loop: round 0 is the
uniform initialization, each later round applies the update rule. -/
def ranksAt (corpus : Graph) (d : ℚ) : ℕ → Node → ℚ
  | 0 => fun _ => 1 / (((keys corpus).length : ℕ) : ℚ)
  | n + 1 => newRank corpus d (ranksAt corpus d n)

/-- Convergence test of round `n+1`: every page's absolute change between
rounds `n` and `n+1` is strictly below 0.001. -/
def roundConverged (corpus : Graph) (d : ℚ) (n : ℕ) : Prop :=
  ∀ p ∈ keys corpus,
    |ranksAt corpus d n p - ranksAt corpus d (n + 1) p| < 1/1000

instance roundConvergedDec (corpus : Graph) (d : ℚ) (n : ℕ) :
    Decidable (roundConverged corpus d n) := by
  unfold roundConverged
  exact List.decidableBAll _ _

/-- Keys of a tabulated dict. -/
theorem keys_cvec (corpus : Graph) (f : Node → ℚ) :
    keys (cvec corpus f) = keys corpus := by
  simp [cvec, keys]

/-- Tabulated dicts agreeing on the keys are equal. -/
theorem cvec_congr (corpus : Graph) (f g : Node → ℚ)
    (h : ∀ x ∈ keys corpus, f x = g x) : cvec corpus f = cvec corpus g := by
  unfold cvec
  exact List.map_congr_left (fun x hx => by rw [h x hx])

/-- Reading a key of a tabulated dict. -/
theorem dget_cvec (corpus : Graph) (f : Node → ℚ) (p : Node)
    (hp : p ∈ keys corpus) : dget (cvec corpus f) p = some (f p) :=
  dget_map_eq f (keys corpus) p hp

/-- Overwriting one bound key of a tabulated dict updates the tabulated
function. -/
theorem dset_tabulate {β : Type} (g : Node → β) (key : Node) (v : β) :
    ∀ ks : List Node, ks.Nodup → key ∈ ks →
      dset (ks.map (fun x => (x, g x))) key v =
        ks.map (fun x => (x, Function.update g key v x)) := by
  intro ks
  induction ks with
  | nil => intro _ hk; cases hk
  | cons a rest ih =>
    intro hnd hk
    by_cases h : a = key
    · subst h
      have hnotin : a ∉ rest := (List.nodup_cons.mp hnd).1
      have htail : rest.map (fun x => (x, Function.update g a v x)) =
          rest.map (fun x => (x, g x)) :=
        List.map_congr_left (fun x hx => by
          rw [Function.update_noteq (show x ≠ a from
            fun hc => hnotin (hc ▸ hx))])
      simp only [List.map_cons, dset, reduceIte, Function.update_same, htail]
    · have hk' : key ∈ rest := by
        rcases List.mem_cons.mp hk with hc | hc
        · exact absurd hc.symm h
        · exact hc
      simp only [List.map_cons, dset, if_neg h]
      rw [ih hnd.of_cons hk', Function.update_noteq h]

/-- Refinement of the `prob2` loop: over any tail of the corpus items it
adds, to the accumulator, the code's incoming-share sum read off the
tabulated previous rank. -/
theorem prob2Loop_eq (corpus : Graph) (f : Node → ℚ) (page : Node)
    (hne : corpus ≠ []) :
    ∀ (items : List (Node × List Node)), (∀ s ∈ items, s.1 ∈ keys corpus) →
      ∀ acc : ℚ, prob2Loop corpus (cvec corpus f) page items acc =
        some (acc + (items.map (fun s =>
          if page ∈ effOut corpus s.2
          then f s.1 / ((effOut corpus s.2).length : ℚ) else 0)).sum) := by
  have hkeyslen : ((keys corpus).length : ℚ) ≠ 0 := by
    have : corpus.length ≠ 0 := by simpa [List.length_eq_zero] using hne
    simpa [keys] using (by exact_mod_cast this : ((corpus.length : ℕ) : ℚ) ≠ 0)
  intro items
  induction items with
  | nil => intro _ acc; simp [prob2Loop]
  | cons s rest ih =>
    intro hmem acc
    have hmem' : ∀ x ∈ rest, x.1 ∈ keys corpus :=
      fun x hx => hmem x (by simp [hx])
    have hs : s.1 ∈ keys corpus := hmem s (by simp)
    have hpllen : ((effOut corpus s.2).length : ℚ) ≠ 0 := by
      unfold effOut
      by_cases h2 : s.2.length = 0
      · simpa [h2] using hkeyslen
      · simp only [h2, if_neg, reduceIte]
        exact_mod_cast h2
    by_cases hp : page ∈ effOut corpus s.2
    · have heq : (if s.2.length = 0 then keys corpus else s.2) =
          effOut corpus s.2 := rfl
      simp only [prob2Loop, heq, hp, if_pos, dget_cvec corpus f s.1 hs,
        qdiv, hpllen, if_neg, Option.bind_eq_bind, Option.some_bind,
        reduceIte]
      rw [ih hmem' (acc + f s.1 / ((effOut corpus s.2).length : ℚ))]
      congr 1
      simp only [List.map_cons, List.sum_cons, if_pos hp]
      ring
    · have heq : (if s.2.length = 0 then keys corpus else s.2) =
          effOut corpus s.2 := rfl
      simp only [prob2Loop, heq, hp, if_neg, reduceIte]
      rw [ih hmem' acc]
      congr 1
      simp [hp]

/-- Refinement of one round's rank-writing loop: starting from any
tabulated dict, every page in the iterated key list receives the update
rule's value, computed from `prev` only. -/
theorem rankLoop_eq (corpus : Graph) (d : ℚ) (f : Node → ℚ)
    (hne : corpus ≠ []) (hnd : (keys corpus).Nodup) :
    ∀ (ks : List Node) (g : Node → ℚ), (∀ x ∈ ks, x ∈ keys corpus) →
      rankLoop corpus d (cvec corpus f) ks (cvec corpus g) =
        some (cvec corpus (fun p =>
          if p ∈ ks then newRank corpus d f p else g p)) := by
  have hkeyslen : ((keys corpus).length : ℚ) ≠ 0 := by
    have : corpus.length ≠ 0 := by simpa [List.length_eq_zero] using hne
    simpa [keys] using (by exact_mod_cast this : ((corpus.length : ℕ) : ℚ) ≠ 0)
  intro ks
  induction ks with
  | nil =>
    intro g _
    simp [rankLoop, cvec]
  | cons page rest ih =>
    intro g hmem
    have hmem' : ∀ x ∈ rest, x ∈ keys corpus :=
      fun x hx => hmem x (by simp [hx])
    have hpage : page ∈ keys corpus := hmem page (by simp)
    have hcorpmem : ∀ s ∈ corpus, s.1 ∈ keys corpus := by
      intro s hs
      exact List.mem_map.mpr ⟨s, hs, rfl⟩
    have hprob2 := prob2Loop_eq corpus f page hne corpus hcorpmem 0
    have hdset : dset (cvec corpus g) page
        ((corpus.map (fun s =>
          if page ∈ effOut corpus s.2
          then f s.1 / ((effOut corpus s.2).length : ℚ) else 0)).sum * d +
          (1 - d) / ((keys corpus).length : ℚ)) =
        cvec corpus (Function.update g page (newRank corpus d f page)) := by
      unfold cvec
      rw [dset_tabulate g page _ (keys corpus) hnd hpage]
      exact List.map_congr_left (fun x hx => by
        by_cases hxp : x = page
        · subst hxp
          rw [Function.update_same, Function.update_same]
          simp [newRank]
        · rw [Function.update_noteq hxp, Function.update_noteq hxp])
    simp only [rankLoop, qdiv, hkeyslen, if_neg, Option.bind_eq_bind,
      Option.some_bind, hprob2, zero_add, reduceIte]
    rw [hdset, ih (Function.update g page (newRank corpus d f page)) hmem']
    congr 1
    apply cvec_congr
    intro x _
    by_cases hxr : x ∈ rest
    · simp [hxr]
    · by_cases hxp : x = page
      · subst hxp
        simp [hxr, Function.update_same]
      · simp [hxr, hxp, Function.update_noteq hxp]

/-- Refinement of the convergence-check loop over tabulated dicts: each
visited page's flag becomes the comparison of its old and new rank. -/
theorem checkLoop_eq (corpus : Graph) (f g : Node → ℚ)
    (hnd : (keys corpus).Nodup) :
    ∀ (ks : List Node) (cb : Node → Bool), (∀ x ∈ ks, x ∈ keys corpus) →
      checkLoop (cvec corpus f) (cvec corpus g) ks
        ((keys corpus).map (fun p => (p, cb p))) =
      some ((keys corpus).map (fun p =>
        (p, if p ∈ ks then decide (|f p - g p| < 1/1000) else cb p))) := by
  intro ks
  induction ks with
  | nil =>
    intro cb _
    simp [checkLoop]
  | cons page rest ih =>
    intro cb hmem
    have hmem' : ∀ x ∈ rest, x ∈ keys corpus :=
      fun x hx => hmem x (by simp [hx])
    have hpage : page ∈ keys corpus := hmem page (by simp)
    have hdset : dset ((keys corpus).map (fun p => (p, cb p))) page
        (decide (|f page - g page| < 1/1000)) =
        (keys corpus).map (fun p =>
          (p, Function.update cb page
            (decide (|f page - g page| < 1/1000)) p)) :=
      dset_tabulate cb page _ (keys corpus) hnd hpage
    simp only [checkLoop, dget_cvec corpus f page hpage,
      dget_cvec corpus g page hpage, Option.bind_eq_bind, Option.some_bind,
      hdset]
    rw [ih (Function.update cb page (decide (|f page - g page| < 1/1000)))
      hmem']
    congr 1
    refine List.map_congr_left (fun x _ => ?_)
    by_cases hxr : x ∈ rest
    · simp [hxr]
    · by_cases hxp : x = page
      · subst hxp
        simp [hxr, Function.update_same]
      · simp [hxr, hxp, Function.update_noteq hxp]

/-- Refinement of the initialization loop: over fresh distinct keys it
appends the uniform entries in order. -/
theorem initLoop_eq (corpus : Graph) (hne : corpus ≠ []) :
    ∀ (ks : List Node) (rank : RankVec), ks.Nodup →
      (∀ x ∈ ks, x ∉ keys rank) →
      initLoop corpus ks rank =
        some (rank ++ ks.map (fun p =>
          (p, 1 / (((keys corpus).length : ℕ) : ℚ)))) := by
  have hkeyslen : (((keys corpus).length : ℕ) : ℚ) ≠ 0 := by
    have : corpus.length ≠ 0 := by simpa [List.length_eq_zero] using hne
    simpa [keys] using (by exact_mod_cast this : ((corpus.length : ℕ) : ℚ) ≠ 0)
  intro ks
  induction ks with
  | nil => intro rank _ _; simp [initLoop]
  | cons page rest ih =>
    intro rank hnd hfresh
    have hndr : rest.Nodup := hnd.of_cons
    have hpagerest : page ∉ rest := (List.nodup_cons.mp hnd).1
    have hfp : page ∉ keys rank := hfresh page (by simp)
    have hfresh' : ∀ x ∈ rest,
        x ∉ keys (dset rank page (1 / (((keys corpus).length : ℕ) : ℚ))) := by
      intro x hx
      rw [dset_append_of_not_mem rank page _ hfp]
      intro hc
      have : x ∈ keys rank ∨ x = page := by
        simp [keys] at hc ⊢
        rcases hc with h | h
        · exact Or.inl h
        · exact Or.inr h
      rcases this with h | h
      · exact hfresh x (by simp [hx]) h
      · exact hpagerest (h ▸ hx)
    have := ih (dset rank page (1 / (((keys corpus).length : ℕ) : ℚ)))
      hndr hfresh'
    simp only [initLoop, qdiv, hkeyslen, if_neg, Option.bind_eq_bind,
      Option.some_bind, reduceIte] at this ⊢
    rw [this, dset_append_of_not_mem rank page _ hfp]
    simp

/-- Initialization produces the uniform tabulated rank dict (round 0). -/
theorem initLoop_cvec (corpus : Graph) (d : ℚ) (hne : corpus ≠ [])
    (hnd : (keys corpus).Nodup) :
    initLoop corpus (keys corpus) [] =
      some (cvec corpus (ranksAt corpus d 0)) := by
  rw [initLoop_eq corpus hne (keys corpus) [] hnd (by simp [keys])]
  rfl

/-- One non-final round of the while loop steps the tabulated state from
round `n` to round `n+1`. -/
theorem iterLoop_step (corpus : Graph) (d : ℚ) (hne : corpus ≠ [])
    (hnd : (keys corpus).Nodup) (n : ℕ) (fuel : ℕ) (cb : Node → Bool) :
    iterLoop corpus d (fuel + 1) (cvec corpus (ranksAt corpus d n))
      (cvec corpus (ranksAt corpus d n))
      ((keys corpus).map (fun p => (p, cb p))) =
    if roundConverged corpus d n then
      some (cvec corpus (ranksAt corpus d (n + 1)))
    else
      iterLoop corpus d fuel (cvec corpus (ranksAt corpus d (n + 1)))
        (cvec corpus (ranksAt corpus d (n + 1)))
        ((keys corpus).map (fun p =>
          (p, decide (|ranksAt corpus d n p - ranksAt corpus d (n + 1) p|
            < 1/1000)))) := by
  have hrank := rankLoop_eq corpus d (ranksAt corpus d n) hne hnd
    (keys corpus) (ranksAt corpus d n) (fun x hx => hx)
  have hrank' : rankLoop corpus d (cvec corpus (ranksAt corpus d n))
      (keys corpus) (cvec corpus (ranksAt corpus d n)) =
      some (cvec corpus (ranksAt corpus d (n + 1))) := by
    rw [hrank]
    congr 1
    exact cvec_congr corpus _ _ (fun x hx => by simp [hx, ranksAt])
  have hcheck := checkLoop_eq corpus (ranksAt corpus d n)
    (ranksAt corpus d (n + 1)) hnd (keys corpus) cb (fun x hx => hx)
  have hcheck' : checkLoop (cvec corpus (ranksAt corpus d n))
      (cvec corpus (ranksAt corpus d (n + 1)))
      (keys (cvec corpus (ranksAt corpus d n)))
      ((keys corpus).map (fun p => (p, cb p))) =
      some ((keys corpus).map (fun p =>
        (p, decide (|ranksAt corpus d n p - ranksAt corpus d (n + 1) p|
          < 1/1000)))) := by
    rw [keys_cvec, hcheck]
    congr 1
    exact List.map_congr_left (fun x hx => by simp [hx])
  have hall : allValues ((keys corpus).map (fun p =>
      (p, decide (|ranksAt corpus d n p - ranksAt corpus d (n + 1) p|
        < 1/1000)))) = true ↔ roundConverged corpus d n := by
    unfold allValues roundConverged
    simp [List.all_eq_true]
  simp only [iterLoop, Option.bind_eq_bind, hrank', Option.some_bind,
    hcheck']
  by_cases hcv : roundConverged corpus d n
  · rw [if_pos hcv, if_pos (hall.mpr hcv)]
  · rw [if_neg hcv, if_neg (by
      intro hc
      exact hcv (hall.mp hc))]

/-- Run lemma: starting the while loop at round-state `n ≤ N`, where `N` is
the first convergent round, any fuel beyond `N - n` rounds exits returning
the tabulated vector of round `N+1`. -/
theorem iterLoop_run (corpus : Graph) (d : ℚ) (hne : corpus ≠ [])
    (hnd : (keys corpus).Nodup) (N : ℕ)
    (hconv : roundConverged corpus d N)
    (hmin : ∀ m, m < N → ¬ roundConverged corpus d m) :
    ∀ (fuel n : ℕ) (cb : Node → Bool), n ≤ N → N - n < fuel →
      iterLoop corpus d fuel (cvec corpus (ranksAt corpus d n))
        (cvec corpus (ranksAt corpus d n))
        ((keys corpus).map (fun p => (p, cb p))) =
      some (cvec corpus (ranksAt corpus d (N + 1))) := by
  intro fuel
  induction fuel with
  | zero => intro n cb _ hf; omega
  | succ fuel ih =>
    intro n cb hn hf
    rw [iterLoop_step corpus d hne hnd n fuel cb]
    by_cases hcv : roundConverged corpus d n
    · have : n = N := by
        by_contra hne'
        exact hmin n (by omega) hcv
      rw [if_pos hcv, this]
    · have hnN : n < N := by
        rcases Nat.lt_or_ge n N with h | h
        · exact h
        · exact absurd (by omega : n = N) (fun hc => hcv (hc ▸ hconv))
      rw [if_neg hcv]
      exact ih (n + 1) _ (by omega) (by omega)

/-- Stuck lemma: with no convergent round before `N`, fuel covering at most
the rounds up to `N` makes the loop run out without exiting. -/
theorem iterLoop_stuck (corpus : Graph) (d : ℚ) (hne : corpus ≠ [])
    (hnd : (keys corpus).Nodup) (N : ℕ)
    (hmin : ∀ m, m < N → ¬ roundConverged corpus d m) :
    ∀ (fuel n : ℕ) (cb : Node → Bool), n + fuel ≤ N →
      iterLoop corpus d fuel (cvec corpus (ranksAt corpus d n))
        (cvec corpus (ranksAt corpus d n))
        ((keys corpus).map (fun p => (p, cb p))) = none := by
  intro fuel
  induction fuel with
  | zero => intro n cb _; rfl
  | succ fuel ih =>
    intro n cb hf
    rw [iterLoop_step corpus d hne hnd n fuel cb]
    have hcv : ¬ roundConverged corpus d n := hmin n (by omega)
    rw [if_neg hcv]
    exact ih (n + 1) _ (by omega)

/-- The full iterative estimator, run with fuel covering the first
convergent round `N`, returns the tabulated vector of round `N+1`. -/
theorem iterate_pagerank_run (corpus : Graph) (d : ℚ) (hne : corpus ≠ [])
    (hnd : (keys corpus).Nodup) (N : ℕ)
    (hconv : roundConverged corpus d N)
    (hmin : ∀ m, m < N → ¬ roundConverged corpus d m)
    (fuel : ℕ) (hfuel : N < fuel) :
    iterate_pagerank corpus d fuel =
      some (cvec corpus (ranksAt corpus d (N + 1))) := by
  have hcheck0 : (cvec corpus (ranksAt corpus d 0)).map
      (fun kv => (kv.1, false)) =
      (keys corpus).map (fun p => (p, (fun _ : Node => false) p)) := by
    simp [cvec]
  rw [iterate_pagerank, initLoop_cvec corpus d hne hnd]
  simp only [Option.bind_eq_bind, Option.some_bind, hcheck0]
  exact iterLoop_run corpus d hne hnd N hconv hmin fuel 0
    (fun _ => false) (by omega) (by omega)

/-- With fuel not reaching the first convergent round, the fuelled loop
does not exit. -/
theorem iterate_pagerank_stuck (corpus : Graph) (d : ℚ) (hne : corpus ≠ [])
    (hnd : (keys corpus).Nodup) (N : ℕ)
    (hmin : ∀ m, m < N → ¬ roundConverged corpus d m)
    (fuel : ℕ) (hfuel : fuel ≤ N) :
    iterate_pagerank corpus d fuel = none := by
  have hcheck0 : (cvec corpus (ranksAt corpus d 0)).map
      (fun kv => (kv.1, false)) =
      (keys corpus).map (fun p => (p, (fun _ : Node => false) p)) := by
    simp [cvec]
  rw [iterate_pagerank, initLoop_cvec corpus d hne hnd]
  simp only [Option.bind_eq_bind, Option.some_bind, hcheck0]
  exact iterLoop_stuck corpus d hne hnd N hmin fuel 0
    (fun _ => false) (by omega)

/-- The code's per-round value agrees with spec §4.3's update formula on
every page of the graph. -/
theorem newRank_eq_specNewRank (corpus : Graph) (d : ℚ) (f : Node → ℚ)
    (hne : corpus ≠ []) (t : Node) (ht : t ∈ keys corpus) :
    newRank corpus d f t = specNewRank corpus d f t := by
  unfold newRank specNewRank
  have hterm : ∀ s ∈ corpus,
      (if t ∈ effOut corpus s.2
        then f s.1 / ((effOut corpus s.2).length : ℚ) else 0) =
      (if t ∈ s.2 ∨ s.2 = [] then
        f s.1 / (if s.2 = [] then (corpus.length : ℚ) else (s.2.length : ℚ))
      else 0) := by
    intro s _
    by_cases h2 : s.2 = []
    · have heff : effOut corpus s.2 = keys corpus := by
        simp [effOut, h2]
      rw [heff, if_pos ht, if_pos (Or.inr h2), if_pos h2]
      congr 1
      simp [keys]
    · have heff : effOut corpus s.2 = s.2 := by
        simp [effOut, List.length_eq_zero, h2]
      rw [heff, if_neg h2]
      by_cases hts : t ∈ s.2
      · rw [if_pos hts, if_pos (Or.inl hts)]
      · rw [if_neg hts, if_neg (by simp [hts, h2])]
  rw [List.map_congr_left hterm]
  have hk : ((keys corpus).length : ℚ) = (corpus.length : ℚ) := by
    simp [keys]
  rw [hk]
  ring

/-- C4: for a non-empty graph and damping in (0,1), `iterate_pagerank`
initializes every page's rank to `1/k`, and each round writes, for every
target page, the synchronous value
`(1-damping)/k + damping * Σ prev_rank(s)/effective_outdegree(s)` over the
sources `s` linking to the target or having no outlinks — the round reads
only the previous round's tabulated vector, whatever dict it overwrites. -/
theorem C4_init_and_update (corpus : Graph) (d : ℚ) (f g : Node → ℚ)
    (hd0 : 0 < d) (hd1 : d < 1) (hne : corpus ≠ [])
    (hnd : (keys corpus).Nodup) :
    initLoop corpus (keys corpus) [] =
      some (cvec corpus (fun _ => 1 / (corpus.length : ℚ))) ∧
    rankLoop corpus d (cvec corpus f) (keys corpus) (cvec corpus g) =
      some (cvec corpus (specNewRank corpus d f)) := by
  constructor
  · rw [initLoop_cvec corpus d hne hnd]
    congr 1
    apply cvec_congr
    intro x _
    simp [ranksAt, keys]
  · rw [rankLoop_eq corpus d f hne hnd (keys corpus) g (fun x hx => hx)]
    congr 1
    apply cvec_congr
    intro x hx
    rw [if_pos hx, newRank_eq_specNewRank corpus d f hne x hx]

/-- Witness for C4 on `{"A": {"B"}, "B": set()}` with damping `1/2` and the
constant previous vector `1/2`. -/
theorem C4_witness :
    initLoop [("A", ["B"]), ("B", [])] (keys ([("A", ["B"]), ("B", [])] : Graph)) [] =
      some (cvec [("A", ["B"]), ("B", [])] (fun _ => 1 / (([("A", ["B"]), ("B", [])] : Graph).length : ℚ))) ∧
    rankLoop [("A", ["B"]), ("B", [])] (1/2)
        (cvec [("A", ["B"]), ("B", [])] (fun _ => 1/2))
        (keys ([("A", ["B"]), ("B", [])] : Graph))
        (cvec [("A", ["B"]), ("B", [])] (fun _ => 1/2)) =
      some (cvec [("A", ["B"]), ("B", [])]
        (specNewRank [("A", ["B"]), ("B", [])] (1/2) (fun _ => 1/2))) :=
  C4_init_and_update [("A", ["B"]), ("B", [])] (1/2) (fun _ => 1/2)
    (fun _ => 1/2) (by norm_num) (by norm_num) (by decide) (by decide)

/-- C5: the while loop exits at exactly the first round `N+1` whose whole
freshly computed vector differs from round `N`'s by less than 0.001 at
every page, returning that round's vector: enough fuel yields round `N+1`'s
tabulated vector, while any fuel allowing only the rounds before it yields
no exit. -/
theorem C5_stops_at_first_convergence (corpus : Graph) (d : ℚ) (N : ℕ)
    (hd0 : 0 < d) (hd1 : d < 1) (hne : corpus ≠ [])
    (hnd : (keys corpus).Nodup)
    (hconv : roundConverged corpus d N)
    (hmin : ∀ m, m < N → ¬ roundConverged corpus d m) :
    (∀ fuel, N < fuel → iterate_pagerank corpus d fuel =
      some (cvec corpus (ranksAt corpus d (N + 1)))) ∧
    (∀ fuel, fuel ≤ N → iterate_pagerank corpus d fuel = none) := by
  constructor
  · intro fuel hfuel
    exact iterate_pagerank_run corpus d hne hnd N hconv hmin fuel hfuel
  · intro fuel hfuel
    exact iterate_pagerank_stuck corpus d hne hnd N hmin fuel hfuel

/-- Witness for C5 on the one-page corpus `{"A": set()}` with damping
`1/2`: the very first round already converges (`N = 0`). -/
theorem C5_witness :
    (∀ fuel, 0 < fuel → iterate_pagerank [("A", [])] (1/2) fuel =
      some (cvec [("A", [])] (ranksAt [("A", [])] (1/2) (0 + 1)))) ∧
    (∀ fuel, fuel ≤ 0 → iterate_pagerank [("A", [])] (1/2) fuel = none) :=
  C5_stops_at_first_convergence [("A", [])] (1/2) 0 (by norm_num)
    (by norm_num) (by decide) (by decide)
    (by
      intro p hp
      have hp' : p = "A" := by simpa [keys] using hp
      subst hp'
      have h1 : ranksAt [("A", [])] (1/2) (0 + 1) "A" =
          newRank [("A", [])] (1/2) (ranksAt [("A", [])] (1/2) 0) "A" := rfl
      rw [h1]
      norm_num [ranksAt, newRank, effOut, keys])
    (fun m hm => absurd hm (Nat.not_lt_zero m))

/-- L1 distance over the corpus keys between two rank functions. -/
def l1diff (corpus : Graph) (f g : Node → ℚ) : ℚ :=
  ((keys corpus).map (fun p => |f p - g p|)).sum

/-- Sums of mapped differences split. -/
theorem sum_map_sub {α : Type} (l : List α) (f g : α → ℚ) :
    (l.map (fun x => f x - g x)).sum = (l.map f).sum - (l.map g).sum := by
  induction l with
  | nil => simp
  | cons a t ih =>
    simp only [List.map_cons, List.sum_cons, ih]
    ring

/-- Triangle inequality for a mapped list sum. -/
theorem abs_sum_le {α : Type} (l : List α) (f : α → ℚ) :
    |(l.map f).sum| ≤ (l.map (fun x => |f x|)).sum := by
  induction l with
  | nil => simp
  | cons a t ih =>
    simp only [List.map_cons, List.sum_cons]
    exact le_trans (abs_add _ _) (by linarith)

/-- Exchanging two mapped list sums. -/
theorem sum_map_comm {α β : Type} (l₁ : List α) (l₂ : List β)
    (F : α → β → ℚ) :
    (l₁.map (fun a => (l₂.map (fun b => F a b)).sum)).sum =
      (l₂.map (fun b => (l₁.map (fun a => F a b)).sum)).sum := by
  induction l₁ with
  | nil => simp
  | cons a t ih =>
    simp only [List.map_cons, List.sum_cons, ih]
    exact (List.sum_map_add).symm

/-- A sum of guarded constants is the matching count times the constant. -/
theorem sum_ite_count (c : ℚ) (pl : List Node) :
    ∀ ks : List Node,
      (ks.map (fun t => if t ∈ pl then c else 0)).sum =
        ((ks.countP (fun t => decide (t ∈ pl)) : ℕ) : ℚ) * c := by
  intro ks
  induction ks with
  | nil => simp
  | cons a t ih =>
    simp only [List.map_cons, List.sum_cons, ih, List.countP_cons]
    by_cases h : a ∈ pl
    · have hd : decide (a ∈ pl) = true := by simpa using h
      simp only [h, if_pos, reduceIte, hd]
      push_cast
      norm_num
      ring
    · simp [h]

/-- Distinct keys hit a list at most its length many times. -/
theorem countP_mem_le (pl : List Node) (ks : List Node) (hnd : ks.Nodup) :
    ks.countP (fun t => decide (t ∈ pl)) ≤ pl.length := by
  rw [List.countP_eq_length_filter]
  have h2 : (ks.filter (fun t => decide (t ∈ pl))).Nodup := hnd.filter _
  have h3 : ∀ x ∈ ks.filter (fun t => decide (t ∈ pl)), x ∈ pl := by
    intro x hx
    simpa using (List.mem_filter.mp hx).2
  exact (List.subperm_of_subset h2 h3).length_le

/-- The effective link list is never empty on a non-empty corpus. -/
theorem effOut_length_ne (corpus : Graph) (links : List Node)
    (hne : corpus ≠ []) : ((effOut corpus links).length : ℚ) ≠ 0 := by
  have hkeyslen : ((keys corpus).length : ℚ) ≠ 0 := by
    have : corpus.length ≠ 0 := by simpa [List.length_eq_zero] using hne
    simpa [keys] using (by exact_mod_cast this : ((corpus.length : ℕ) : ℚ) ≠ 0)
  unfold effOut
  by_cases h2 : links.length = 0
  · simpa [h2] using hkeyslen
  · simp only [h2, reduceIte]
    exact_mod_cast h2

/-- Pointwise difference of two round updates. -/
theorem newRank_sub (corpus : Graph) (d : ℚ) (f g : Node → ℚ) (t : Node) :
    newRank corpus d f t - newRank corpus d g t =
      (corpus.map (fun s =>
        if t ∈ effOut corpus s.2
        then (f s.1 - g s.1) / ((effOut corpus s.2).length : ℚ)
        else 0)).sum * d := by
  have hterm : (corpus.map (fun s =>
      if t ∈ effOut corpus s.2
      then (f s.1 - g s.1) / ((effOut corpus s.2).length : ℚ) else 0)).sum =
      (corpus.map (fun s => if t ∈ effOut corpus s.2
        then f s.1 / ((effOut corpus s.2).length : ℚ) else 0)).sum -
      (corpus.map (fun s => if t ∈ effOut corpus s.2
        then g s.1 / ((effOut corpus s.2).length : ℚ) else 0)).sum := by
    rw [← sum_map_sub]
    refine congrArg List.sum (List.map_congr_left (fun s _ => ?_))
    by_cases h : t ∈ effOut corpus s.2
    · simp only [h, if_pos, reduceIte]
      ring
    · simp [h]
  rw [hterm]
  unfold newRank
  ring

/-- One round contracts the L1 distance by the damping factor. -/
theorem l1_contract (corpus : Graph) (d : ℚ) (hd0 : 0 ≤ d)
    (hne : corpus ≠ []) (hnd : (keys corpus).Nodup) (f g : Node → ℚ) :
    l1diff corpus (newRank corpus d f) (newRank corpus d g) ≤
      d * l1diff corpus f g := by
  have habs : ∀ s : Node × List Node, ∀ t : Node,
      |if t ∈ effOut corpus s.2
        then (f s.1 - g s.1) / ((effOut corpus s.2).length : ℚ) else 0| =
      (if t ∈ effOut corpus s.2
        then |f s.1 - g s.1| / ((effOut corpus s.2).length : ℚ) else 0) := by
    intro s t
    by_cases h : t ∈ effOut corpus s.2
    · simp only [h, if_pos, reduceIte, abs_div]
      rw [abs_of_nonneg (by positivity : (0:ℚ) ≤ ((effOut corpus s.2).length : ℚ))]
    · simp [h]
  have hstep1 : l1diff corpus (newRank corpus d f) (newRank corpus d g) ≤
      ((keys corpus).map (fun t => d * (corpus.map (fun s =>
        if t ∈ effOut corpus s.2
        then |f s.1 - g s.1| / ((effOut corpus s.2).length : ℚ)
        else 0)).sum)).sum := by
    unfold l1diff
    refine List.sum_le_sum (fun t _ => ?_)
    rw [newRank_sub corpus d f g t, abs_mul, abs_of_nonneg hd0, mul_comm]
    refine mul_le_mul_of_nonneg_left ?_ hd0
    calc |(corpus.map (fun s =>
        if t ∈ effOut corpus s.2
        then (f s.1 - g s.1) / ((effOut corpus s.2).length : ℚ) else 0)).sum|
        ≤ (corpus.map (fun s => |if t ∈ effOut corpus s.2
            then (f s.1 - g s.1) / ((effOut corpus s.2).length : ℚ)
            else 0|)).sum := abs_sum_le corpus _
      _ = (corpus.map (fun s => if t ∈ effOut corpus s.2
            then |f s.1 - g s.1| / ((effOut corpus s.2).length : ℚ)
            else 0)).sum := by
          exact congrArg List.sum (List.map_congr_left (fun s _ => habs s t))
  have hstep2 : ((keys corpus).map (fun t => d * (corpus.map (fun s =>
      if t ∈ effOut corpus s.2
      then |f s.1 - g s.1| / ((effOut corpus s.2).length : ℚ)
      else 0)).sum)).sum =
      d * (corpus.map (fun s => ((keys corpus).map (fun t =>
        if t ∈ effOut corpus s.2
        then |f s.1 - g s.1| / ((effOut corpus s.2).length : ℚ)
        else 0)).sum)).sum := by
    rw [List.sum_map_mul_left]
    congr 1
    exact sum_map_comm (keys corpus) corpus _
  have hstep3 : ∀ s ∈ corpus, ((keys corpus).map (fun t =>
      if t ∈ effOut corpus s.2
      then |f s.1 - g s.1| / ((effOut corpus s.2).length : ℚ)
      else 0)).sum ≤ |f s.1 - g s.1| := by
    intro s _
    rw [sum_ite_count (|f s.1 - g s.1| / ((effOut corpus s.2).length : ℚ))
      (effOut corpus s.2) (keys corpus)]
    have hlen : ((effOut corpus s.2).length : ℚ) ≠ 0 :=
      effOut_length_ne corpus s.2 hne
    have hcnt : (((keys corpus).countP
        (fun t => decide (t ∈ effOut corpus s.2)) : ℕ) : ℚ) ≤
        ((effOut corpus s.2).length : ℚ) := by
      exact_mod_cast countP_mem_le (effOut corpus s.2) (keys corpus) hnd
    calc (((keys corpus).countP
          (fun t => decide (t ∈ effOut corpus s.2)) : ℕ) : ℚ) *
          (|f s.1 - g s.1| / ((effOut corpus s.2).length : ℚ))
        ≤ ((effOut corpus s.2).length : ℚ) *
          (|f s.1 - g s.1| / ((effOut corpus s.2).length : ℚ)) := by
          refine mul_le_mul_of_nonneg_right hcnt (by positivity)
      _ = |f s.1 - g s.1| := by
          field_simp
  have hstep4 : (corpus.map (fun s => |f s.1 - g s.1|)).sum =
      l1diff corpus f g := by
    unfold l1diff keys
    rw [List.map_map]
    rfl
  calc l1diff corpus (newRank corpus d f) (newRank corpus d g)
      ≤ ((keys corpus).map (fun t => d * (corpus.map (fun s =>
          if t ∈ effOut corpus s.2
          then |f s.1 - g s.1| / ((effOut corpus s.2).length : ℚ)
          else 0)).sum)).sum := hstep1
    _ = d * (corpus.map (fun s => ((keys corpus).map (fun t =>
          if t ∈ effOut corpus s.2
          then |f s.1 - g s.1| / ((effOut corpus s.2).length : ℚ)
          else 0)).sum)).sum := hstep2
    _ ≤ d * (corpus.map (fun s => |f s.1 - g s.1|)).sum := by
        refine mul_le_mul_of_nonneg_left (List.sum_le_sum hstep3) hd0
    _ = d * l1diff corpus f g := by rw [hstep4]

/-- L1 distances are non-negative. -/
theorem l1diff_nonneg (corpus : Graph) (f g : Node → ℚ) :
    0 ≤ l1diff corpus f g := by
  refine List.sum_nonneg ?_
  intro x hx
  obtain ⟨p, _, rfl⟩ := List.mem_map.mp hx
  exact abs_nonneg _

/-- Successive round distances decay geometrically in the damping factor. -/
theorem l1diff_ranksAt_le (corpus : Graph) (d : ℚ) (hd0 : 0 ≤ d)
    (hne : corpus ≠ []) (hnd : (keys corpus).Nodup) :
    ∀ n, l1diff corpus (ranksAt corpus d n) (ranksAt corpus d (n + 1)) ≤
      d ^ n * l1diff corpus (ranksAt corpus d 0) (ranksAt corpus d 1) := by
  intro n
  induction n with
  | zero => simp
  | succ n ih =>
    have hc := l1_contract corpus d hd0 hne hnd (ranksAt corpus d n)
      (ranksAt corpus d (n + 1))
    have hstep : l1diff corpus (ranksAt corpus d (n + 1))
        (ranksAt corpus d (n + 2)) ≤
        d * l1diff corpus (ranksAt corpus d n) (ranksAt corpus d (n + 1)) :=
      hc
    calc l1diff corpus (ranksAt corpus d (n + 1)) (ranksAt corpus d (n + 2))
        ≤ d * l1diff corpus (ranksAt corpus d n) (ranksAt corpus d (n + 1)) :=
          hstep
      _ ≤ d * (d ^ n * l1diff corpus (ranksAt corpus d 0)
            (ranksAt corpus d 1)) := mul_le_mul_of_nonneg_left ih hd0
      _ = d ^ (n + 1) * l1diff corpus (ranksAt corpus d 0)
            (ranksAt corpus d 1) := by ring

/-- With damping strictly below 1 some round's full change drops below the
tolerance. -/
theorem exists_roundConverged (corpus : Graph) (d : ℚ) (hd0 : 0 < d)
    (hd1 : d < 1) (hne : corpus ≠ []) (hnd : (keys corpus).Nodup) :
    ∃ N, roundConverged corpus d N := by
  have hL : 0 ≤ l1diff corpus (ranksAt corpus d 0) (ranksAt corpus d 1) :=
    l1diff_nonneg corpus _ _
  have hexp : ∃ n : ℕ, d ^ n *
      l1diff corpus (ranksAt corpus d 0) (ranksAt corpus d 1) < 1/1000 := by
    rcases eq_or_lt_of_le hL with hz | hpos
    · exact ⟨0, by rw [← hz]; norm_num⟩
    · obtain ⟨n, hn⟩ := exists_pow_lt_of_lt_one
        (x := (1/1000 : ℚ) / l1diff corpus (ranksAt corpus d 0)
          (ranksAt corpus d 1))
        (by positivity) hd1
      exact ⟨n, (lt_div_iff₀ hpos).mp hn⟩
  obtain ⟨n, hn⟩ := hexp
  refine ⟨n, ?_⟩
  intro p hp
  have hmemb : |ranksAt corpus d n p - ranksAt corpus d (n + 1) p| ∈
      (keys corpus).map (fun q =>
        |ranksAt corpus d n q - ranksAt corpus d (n + 1) q|) :=
    List.mem_map.mpr ⟨p, hp, rfl⟩
  have hle : |ranksAt corpus d n p - ranksAt corpus d (n + 1) p| ≤
      l1diff corpus (ranksAt corpus d n) (ranksAt corpus d (n + 1)) := by
    refine List.single_le_sum ?_ _ hmemb
    intro x hx
    obtain ⟨q, _, rfl⟩ := List.mem_map.mp hx
    exact abs_nonneg _
  exact lt_of_le_of_lt
    (le_trans hle (l1diff_ranksAt_le corpus d (le_of_lt hd0) hne hnd n)) hn

/-- C6: for every graph with at least one node and every damping factor in
(0,1), the while loop of `iterate_pagerank` converges after finitely many
rounds: some fuel makes the fuelled loop exit with a rank vector. -/
theorem C6_iterate_terminates (corpus : Graph) (d : ℚ) (hd0 : 0 < d)
    (hd1 : d < 1) (hne : corpus ≠ []) (hnd : (keys corpus).Nodup) :
    ∃ fuel out, iterate_pagerank corpus d fuel = some out := by
  have hex : ∃ N, roundConverged corpus d N :=
    exists_roundConverged corpus d hd0 hd1 hne hnd
  refine ⟨Nat.find hex + 1,
    cvec corpus (ranksAt corpus d (Nat.find hex + 1)), ?_⟩
  exact iterate_pagerank_run corpus d hne hnd (Nat.find hex)
    (Nat.find_spec hex) (fun m hm => Nat.find_min hex hm)
    (Nat.find hex + 1) (by omega)

/-- Witness for C6 on the two-page cycle with the repository's damping. -/
theorem C6_witness :
    ∃ fuel out, iterate_pagerank [("A", ["B"]), ("B", ["A"])] (17/20) fuel =
      some out :=
  C6_iterate_terminates [("A", ["B"]), ("B", ["A"])] (17/20) (by norm_num)
    (by norm_num) (by decide) (by decide)

end PageRank
